import Mathlib

/-!
Verification of the task-scheduler program (src/task_scheduler.py).

The functions parse_tasks, build_graph and validate_graph are embedded
function by function.  The networkx library operations the source calls
(DiGraph construction with insertion-ordered nodes and edges,
is_directed_acyclic_graph, topological_sort, predecessors, node
attributes) are embedded as operations on an insertion-ordered graph
representation; topological_sort is realized by a deterministic Kahn
elimination.  The concrete order the library iterator yields among
simultaneously available nodes is an incidental tie-break (the design
notes call it iteration-order-dependent), and no property proved below
depends on it.  run_tasks is embedded further down as a small-step
semantics of a bounded worker pool with a FIFO submission queue.

Python dictionaries are embedded as insertion-ordered association
lists; dictionary lookup is first-match lookup.  Python integers are
Lean Int.
-/

/-- A registry entry: the value of tasks[name] built by parse_tasks. -/
structure TaskData where
  duration : Int
  deps : List String
deriving DecidableEq

/-- The task registry: a Python dict embedded as an insertion-ordered
association list with unique keys. -/
abbrev Registry := List (String × TaskData)

/-- Python str.strip removes leading and trailing whitespace. -/
def pyWhitespace (c : Char) : Bool :=
  c = ' ' || c = '\t' || c = '\n' || c = '\r' || c = Char.ofNat 11 || c = Char.ofNat 12

/-- Embedding of Python str.strip(). -/
def pyStrip (s : String) : String :=
  ⟨((s.data.dropWhile pyWhitespace).reverse.dropWhile pyWhitespace).reverse⟩

/-- Value of a decimal digit character. -/
def digitVal (c : Char) : Nat := c.toNat - '0'.toNat

/-- Reads a nonempty all-decimal-digit character list as a Nat. -/
def readDigits : List Char → Option Nat
  | [] => none
  | cs =>
    if cs.all Char.isDigit then
      some (cs.foldl (fun n c => 10 * n + digitVal c) 0)
    else none

/-- Embedding of Python int(s) on an already-stripped string: an
optional single sign followed by at least one decimal digit; any other
shape raises ValueError, embedded as none. -/
def pyInt (s : String) : Option Int :=
  match s.data with
  | [] => none
  | c :: cs =>
    if c = '-' then (readDigits cs).map (fun n => -(n : Int))
    else if c = '+' then (readDigits cs).map (fun n => (n : Int))
    else (readDigits (c :: cs)).map (fun n => (n : Int))

/-- Python dict insert: tasks[name] = td.  An existing key keeps its
position and gets the new value; a new key is appended. -/
def updateAssoc (ts : Registry) (name : String) (td : TaskData) : Registry :=
  if ts.any (fun p => p.1 = name) then
    ts.map (fun p => if p.1 = name then (name, td) else p)
  else ts ++ [(name, td)]

/-- The row loop of parse_tasks.  A row is the list of CSV fields (CSV
reading itself is the external collaborator).  Rows with fewer than two
fields are skipped; int(row[1].strip()) raising ValueError is embedded
as an error carrying the raw stripped text (which is all the Python
exception message carries - in particular no task name). -/
def parseRows : List (List String) → Registry → Except String Registry
  | [], acc => .ok acc
  | row :: rest, acc =>
    if row.length < 2 then parseRows rest acc
    else
      match row with
      | r0 :: r1 :: rtail =>
        match pyInt (pyStrip r1) with
        | none => .error (pyStrip r1)
        | some d =>
          let ds := (rtail.map pyStrip).filter (fun s => s ≠ "")
          parseRows rest (updateAssoc acc (pyStrip r0) ⟨d, ds⟩)
      | _ => parseRows rest acc

/-- Embedding of parse_tasks, taking the list of CSV rows. -/
def parse_tasks (rows : List (List String)) : Except String Registry :=
  parseRows rows []

/-- The networkx DiGraph as built by build_graph: nodes in insertion
order carrying their duration attribute, edges in insertion order. -/
structure DiGraph where
  nodes : List (String × Int)
  edges : List (String × String)
deriving DecidableEq

/-- Python dict lookup tasks[name] / the check name in tasks. -/
def lookupTask (ts : Registry) (name : String) : Option TaskData :=
  (ts.find? (fun p => p.1 = name)).map Prod.snd

/-- Duration a registry entry declares for a name (0 if absent; only
used after membership has been checked). -/
def regDuration (ts : Registry) (name : String) : Int :=
  match lookupTask ts name with
  | some td => td.duration
  | none => 0

/-- G.add_node(task, duration=d): an existing node keeps its position
and gets the new attribute value; a new node is appended. -/
def addNode (ns : List (String × Int)) (name : String) (d : Int) : List (String × Int) :=
  if ns.any (fun p => p.1 = name) then
    ns.map (fun p => if p.1 = name then (name, d) else p)
  else ns ++ [(name, d)]

/-- G.add_edge(dep, task) first inserts a missing endpoint node.  In
networkx that node has no duration attribute until its own
registry-driven add_node call later overwrites it; since build_graph
checks dep's registry membership before every add_edge, that later call
always happens, and we record the final attribute value directly. -/
def addEndpoint (ts : Registry) (ns : List (String × Int)) (name : String) :
    List (String × Int) :=
  if ns.any (fun p => p.1 = name) then ns else ns ++ [(name, regDuration ts name)]

/-- G.add_edge appends a new edge; re-adding an existing edge is a
no-op. -/
def addEdge (es : List (String × String)) (e : String × String) : List (String × String) :=
  if e ∈ es then es else es ++ [e]

/-- The inner dependency loop of build_graph: the membership check
precedes the edge insertion, and the ValueError carries the task and
the missing dependency name. -/
def buildDeps (ts : Registry) (task : String) :
    List String → DiGraph → Except (String × String) DiGraph
  | [], g => .ok g
  | dep :: rest, g =>
    if (lookupTask ts dep).isSome then
      buildDeps ts task rest ⟨addEndpoint ts g.nodes dep, addEdge g.edges (dep, task)⟩
    else .error (task, dep)

/-- The outer loop of build_graph over the registry items. -/
def buildAll (ts : Registry) :
    List (String × TaskData) → DiGraph → Except (String × String) DiGraph
  | [], g => .ok g
  | (task, td) :: rest, g =>
    match buildDeps ts task td.deps ⟨addNode g.nodes task td.duration, g.edges⟩ with
    | .ok g2 => buildAll ts rest g2
    | .error e => .error e

/-- Embedding of build_graph. -/
def build_graph (ts : Registry) : Except (String × String) DiGraph :=
  buildAll ts ts ⟨[], []⟩

/-- Edge test on the edge list. -/
def isEdge (es : List (String × String)) (u v : String) : Bool :=
  es.any (fun e => e.1 = u && e.2 = v)

/-- A node of rem with no predecessor still in rem (indegree zero in
the remaining graph). -/
def noRemPred (es : List (String × String)) (rem : List String) (v : String) : Bool :=
  !(rem.any (fun u => isEdge es u v))

/-- Kahn elimination realizing nx.topological_sort: repeatedly remove
a node whose remaining indegree is zero; stop (leaving the output
short) when none exists.  Fuel equal to the initial number of nodes is
always sufficient, since every round removes one node. -/
def kahnAux (es : List (String × String)) : Nat → List String → List String
  | 0, _ => []
  | fuel + 1, rem =>
    match rem.find? (noRemPred es rem) with
    | none => []
    | some v => v :: kahnAux es fuel (rem.erase v)

/-- The topological order of the graph's nodes (all of them exactly
when the graph is acyclic). -/
def kahn (g : DiGraph) : List String :=
  kahnAux g.edges (g.nodes.map Prod.fst).length (g.nodes.map Prod.fst)

/-- First-match lookup in an Int-valued association list (Python dict
lookup; the default is never reached at the call sites proved about). -/
def lookupInt (m : List (String × Int)) (k : String) : Int :=
  match m.find? (fun p => p.1 = k) with
  | some p => p.2
  | none => 0

/-- G.nodes[u]['duration']. -/
def durOf (g : DiGraph) (u : String) : Int := lookupInt g.nodes u

/-- list(G.predecessors(u)): sources of the edges into u, in edge
insertion order (distinct, since the edge list carries no duplicate
pairs). -/
def predsOf (g : DiGraph) (u : String) : List String :=
  (g.edges.filter (fun e => e.2 = u)).map Prod.fst

/-- Python max(xs, key=f): the first element attaining the maximum of
f (a later element replaces the current best only when strictly
greater). -/
def firstMax (f : String → Int) : List String → Option String
  | [] => none
  | x :: xs => some (xs.foldl (fun b y => if f b < f y then y else b) x)

/-- The two dictionaries the dynamic program of validate_graph fills
in topological order. -/
structure DPState where
  ef : List (String × Int)
  par : List (String × Option String)
deriving DecidableEq

/-- One iteration of the earliest-finish loop of validate_graph:
earliest_start is 0 for a node without predecessors, otherwise the
earliest finish of the predecessor finishing latest, recorded as the
parent. -/
def dpStep (g : DiGraph) (st : DPState) (u : String) : DPState :=
  match firstMax (lookupInt st.ef) (predsOf g u) with
  | some p => ⟨st.ef ++ [(u, lookupInt st.ef p + durOf g u)], st.par ++ [(u, some p)]⟩
  | none => ⟨st.ef ++ [(u, durOf g u)], st.par ++ [(u, none)]⟩

/-- The completed dynamic program over the topological order. -/
def dpRun (g : DiGraph) : DPState := (kahn g).foldl (dpStep g) ⟨[], []⟩

/-- parent[u] lookup (none result = key absent, which the proofs rule
out for nodes of the topological order). -/
def lookupPar (m : List (String × Option String)) (k : String) : Option (Option String) :=
  (m.find? (fun p => p.1 = k)).map Prod.snd

/-- The backtracking loop of validate_graph: follow parent links from
the terminal until parent is None, collecting nodes.  Fuel bounds the
loop; fuel equal to the number of nodes is sufficient because parents
strictly precede their children in the topological order. -/
def backtrack (par : List (String × Option String)) : Nat → String → List String
  | 0, cur => [cur]
  | fuel + 1, cur =>
    match lookupPar par cur with
    | some (some p) => cur :: backtrack par fuel p
    | _ => [cur]

/-- The two ValueError exits of validate_graph: the explicit cycle
error, and the ValueError Python's max raises on the empty
earliest_finish dict of an empty graph. -/
inductive VErr where
  | cycle
  | emptyMax
deriving DecidableEq

/-- Embedding of validate_graph: cycle check (is_directed_acyclic_graph
= the Kahn elimination orders every node), the earliest-finish dynamic
program, terminal selection by max over the earliest_finish dict in
key-insertion order, and parent backtracking, returning
(expected_runtime, critical path). -/
def validate_graph (g : DiGraph) : Except VErr (Int × List String) :=
  let names := g.nodes.map Prod.fst
  let topo := kahn g
  if topo.length = names.length then
    let st := topo.foldl (dpStep g) ⟨[], []⟩
    match firstMax (lookupInt st.ef) (st.ef.map Prod.fst) with
    | some e => .ok (lookupInt st.ef e, (backtrack st.par topo.length e).reverse)
    | none => .error .emptyMax
  else .error .cycle

/-- The earliest_finish dictionary validate_graph computes, exposed
for stating terminal-maximality. -/
def efTable (g : DiGraph) : List (String × Int) := (dpRun g).ef

/-- A directed walk in the graph: a nonempty sequence of nodes linked
by edges. -/
def ValidWalk (g : DiGraph) (w : List String) : Prop :=
  w ≠ [] ∧ (∀ x ∈ w, x ∈ g.nodes.map Prod.fst) ∧
    List.Chain' (fun a b => isEdge g.edges a b = true) w

/-- Cumulative duration of the tasks on a walk. -/
def walkWeight (g : DiGraph) (w : List String) : Int := (w.map (durOf g)).sum

/-- The graph has a directed cycle: a closed edge-walk of length at
least one. -/
def HasCycle (g : DiGraph) : Prop :=
  ∃ v p, List.Chain (fun a b => isEdge g.edges a b = true) v (p ++ [v])

/-- Well-formedness of the embedded DiGraph, invariantly true of every
graph networkx hands back from build_graph: node names are unique, the
edge list has no duplicate pairs, and edges join existing nodes. -/
def WF (g : DiGraph) : Prop :=
  (g.nodes.map Prod.fst).Nodup ∧ g.edges.Nodup ∧
    ∀ e ∈ g.edges, e.1 ∈ g.nodes.map Prod.fst ∧ e.2 ∈ g.nodes.map Prod.fst

/-- First unresolvable dependency reference inside one task's list. -/
def firstBadDep (ts : Registry) (task : String) : List String → Option (String × String)
  | [] => none
  | d :: rest =>
    if (lookupTask ts d).isSome then firstBadDep ts task rest else some (task, d)

/-- Scan of the registry in order for the first unresolvable
dependency reference. -/
def firstMissingAux (ts : Registry) : List (String × TaskData) → Option (String × String)
  | [] => none
  | (task, td) :: rest =>
    match firstBadDep ts task td.deps with
    | some e => some e
    | none => firstMissingAux ts rest

/-- Stated from the claim's words: the first reference, in registry
iteration order, to a dependency name absent from the registry. -/
def firstMissingRef (ts : Registry) : Option (String × String) := firstMissingAux ts ts

/-- The diamond registry of the spec's testable-properties section. -/
def diamondReg : Registry :=
  [("A", ⟨1, []⟩), ("B", ⟨5, ["A"]⟩), ("C", ⟨2, ["A"]⟩), ("D", ⟨1, ["B", "C"]⟩)]

/-- The graph build_graph produces from the diamond registry. -/
def diamondG : DiGraph :=
  ⟨[("A", 1), ("B", 5), ("C", 2), ("D", 1)],
   [("A", "B"), ("A", "C"), ("B", "D"), ("C", "D")]⟩

/-- The linear-chain registry of the spec's testable-properties
section. -/
def chainReg : Registry := [("A", ⟨2, []⟩), ("B", ⟨3, ["A"]⟩), ("C", ⟨1, ["B"]⟩)]

/-- The graph build_graph produces from the chain registry. -/
def chainG : DiGraph :=
  ⟨[("A", 2), ("B", 3), ("C", 1)], [("A", "B"), ("B", "C")]⟩

/-- C5: on the diamond graph (A duration 1; B duration 5 and C
duration 2 both depending on A; D duration 1 depending on B and C) the
analyzer returns critical path [A, B, D] and expected_runtime 7: the
branch with the larger cumulative duration wins. -/
theorem claim_C5 :
    build_graph diamondReg = .ok diamondG ∧
      validate_graph diamondG = .ok (7, ["A", "B", "D"]) :=
  ⟨rfl, rfl⟩

/-- C6: on the linear chain A duration 2, B duration 3 depending on A,
C duration 1 depending on B, the analyzer returns critical path
[A, B, C] and expected_runtime 6. -/
theorem claim_C6 :
    build_graph chainReg = .ok chainG ∧
      validate_graph chainG = .ok (6, ["A", "B", "C"]) :=
  ⟨rfl, rfl⟩

theorem buildDeps_error_iff (ts : Registry) (task : String) (ds : List String)
    (g : DiGraph) (e : String × String) :
    buildDeps ts task ds g = .error e ↔ firstBadDep ts task ds = some e := by
  induction ds generalizing g with
  | nil => simp [buildDeps, firstBadDep]
  | cons d rest ih =>
    by_cases h : (lookupTask ts d).isSome <;>
      simp [buildDeps, firstBadDep, h, ih]

theorem buildAll_error_iff (ts : Registry) (rest : List (String × TaskData))
    (g : DiGraph) (e : String × String) :
    buildAll ts rest g = .error e ↔ firstMissingAux ts rest = some e := by
  induction rest generalizing g with
  | nil => simp [buildAll, firstMissingAux]
  | cons hd tl ih =>
    obtain ⟨task, td⟩ := hd
    cases hbd : buildDeps ts task td.deps ⟨addNode g.nodes task td.duration, g.edges⟩ with
    | ok g2 =>
      have hnone : firstBadDep ts task td.deps = none := by
        cases hfb : firstBadDep ts task td.deps with
        | none => rfl
        | some e0 =>
          have := (buildDeps_error_iff ts task td.deps
            ⟨addNode g.nodes task td.duration, g.edges⟩ e0).mpr hfb
          rw [this] at hbd
          exact absurd hbd (by simp)
      simp [buildAll, hbd, firstMissingAux, hnone, ih]
    | error e0 =>
      have hfb : firstBadDep ts task td.deps = some e0 :=
        (buildDeps_error_iff ts task td.deps
          ⟨addNode g.nodes task td.duration, g.edges⟩ e0).mp hbd
      simp [buildAll, hbd, firstMissingAux, hfb]

/-- C3: build_graph fails exactly when some task references a
dependency name absent from the registry, the error carries the task
and the missing name of the first such reference in registry iteration
order, and no partial graph accompanies the failure (the error is the
entire result); when every reference resolves, build_graph returns a
graph. -/
theorem claim_C3 (ts : Registry) :
    (∀ t d, build_graph ts = .error (t, d) ↔ firstMissingRef ts = some (t, d)) ∧
      ((∃ g, build_graph ts = .ok g) ↔ firstMissingRef ts = none) := by
  constructor
  · intro t d
    exact buildAll_error_iff ts ts ⟨[], []⟩ (t, d)
  · constructor
    · rintro ⟨g, hg⟩
      cases hfm : firstMissingRef ts with
      | none => rfl
      | some e =>
        have := (buildAll_error_iff ts ts ⟨[], []⟩ e).mpr hfm
        rw [build_graph] at hg
        rw [this] at hg
        exact absurd hg (by simp)
    · intro hfm
      cases hb : build_graph ts with
      | ok g => exact ⟨g, rfl⟩
      | error e =>
        have := (buildAll_error_iff ts ts ⟨[], []⟩ e).mp hb
        rw [firstMissingRef] at hfm
        rw [this] at hfm
        exact absurd hfm (by simp)

theorem claim_C3_witness :
    build_graph [("B", ⟨1, ["Z"]⟩)] = .error ("B", "Z") ∧
      ∃ g, build_graph [("A", ⟨1, []⟩)] = .ok g :=
  ⟨((claim_C3 [("B", ⟨1, ["Z"]⟩)]).1 "B" "Z").mpr rfl,
   (claim_C3 [("A", ⟨1, []⟩)]).2.mpr rfl⟩

/-- C7: the analysis is a deterministic function of the graph: two
calls of validate_graph on the same graph that return results return
the same expected runtime and the same critical path. -/
theorem claim_C7 (g : DiGraph) (r1 r2 : Int) (p1 p2 : List String)
    (h1 : validate_graph g = .ok (r1, p1)) (h2 : validate_graph g = .ok (r2, p2)) :
    r1 = r2 ∧ p1 = p2 := by
  rw [h1] at h2
  simpa [Prod.ext_iff] using h2

theorem claim_C7_witness :
    validate_graph chainG = .ok (6, ["A", "B", "C"]) ∧
      (6 : Int) = 6 ∧ ["A", "B", "C"] = ["A", "B", "C"] :=
  ⟨rfl, claim_C7 chainG 6 6 ["A", "B", "C"] ["A", "B", "C"] rfl rfl⟩

/-- A row the parsing loop gets past without raising: it is skipped
for having fewer than two fields, or its duration field parses as an
integer. -/
def rowGood (row : List String) : Bool :=
  decide (row.length < 2) ||
    (match row with
     | _ :: r1 :: _ => (pyInt (pyStrip r1)).isSome
     | _ => false)

theorem parseRows_error_of_bad (rows1 : List (List String)) (r0 r1 : String)
    (rt : List String) (rows2 : List (List String)) (acc : Registry)
    (hgood : ∀ r ∈ rows1, rowGood r = true) (hbad : pyInt (pyStrip r1) = none) :
    parseRows (rows1 ++ (r0 :: r1 :: rt) :: rows2) acc = .error (pyStrip r1) := by
  induction rows1 generalizing acc with
  | nil =>
    have hlen : ¬((r0 :: r1 :: rt).length < 2) := by simp
    simp [parseRows, hlen, hbad]
  | cons r rows1 ih =>
    have hr := hgood r (List.mem_cons_self r rows1)
    have hrest : ∀ r2 ∈ rows1, rowGood r2 = true :=
      fun r2 h2 => hgood r2 (List.mem_cons_of_mem r h2)
    by_cases hlen : r.length < 2
    · simp only [List.cons_append, parseRows, if_pos hlen]
      exact ih acc hrest
    · rcases r with _ | ⟨s0, _ | ⟨s1, st⟩⟩
      · exact absurd (by simp) hlen
      · exact absurd (by simp) hlen
      · have hsome : (pyInt (pyStrip s1)).isSome = true := by
          simp only [rowGood, decide_eq_true_eq, Bool.or_eq_true] at hr
          rcases hr with hr | hr
          · exact absurd hr hlen
          · exact hr
        obtain ⟨d, hd⟩ := Option.isSome_iff_exists.mp hsome
        simp only [List.cons_append, parseRows, if_neg hlen, hd]
        exact ih _ hrest

/-- C8 (amended): a non-integer duration field makes parse_tasks fail
at the first offending row with a ValueError carrying only the raw
stripped text (no task name, no structured error), while any duration
field that parses as an integer - negative included - is silently
accepted into the registry. -/
theorem claim_C8 :
    (∀ (rows1 : List (List String)) (r0 r1 : String) (rt : List String)
        (rows2 : List (List String)),
        (∀ r ∈ rows1, rowGood r = true) → pyInt (pyStrip r1) = none →
        parse_tasks (rows1 ++ (r0 :: r1 :: rt) :: rows2) = .error (pyStrip r1)) ∧
      (∀ (name dstr : String) (d : Int), pyInt (pyStrip dstr) = some d →
        parse_tasks [[name, dstr]] = .ok [(pyStrip name, ⟨d, []⟩)]) := by
  constructor
  · intro rows1 r0 r1 rt rows2 hgood hbad
    exact parseRows_error_of_bad rows1 r0 r1 rt rows2 [] hgood hbad
  · intro name dstr d hd
    have hlen : ¬((name :: dstr :: ([] : List String)).length < 2) := by simp
    simp [parse_tasks, parseRows, hlen, hd, updateAssoc]

/-- C8, the claim as frozen is false on the code: a task whose
duration field is the negative integer -3 is accepted into the
registry without any error. -/
theorem claim_C8_counterexample :
    parse_tasks [["A", "-3"]] = .ok [("A", ⟨-3, []⟩)] ∧ (-3 : Int) < 0 :=
  ⟨rfl, by decide⟩

theorem claim_C8_witness :
    parse_tasks [["A", "x"]] = .error "x" ∧
      parse_tasks [["B", "-3"]] = .ok [("B", ⟨-3, []⟩)] :=
  ⟨claim_C8.1 [] "A" "x" [] [] (by simp) rfl,
   claim_C8.2 "B" "-3" (-3) rfl⟩

theorem isEdge_iff (es : List (String × String)) (u v : String) :
    isEdge es u v = true ↔ (u, v) ∈ es := by
  simp only [isEdge, List.any_eq_true, Bool.and_eq_true, decide_eq_true_eq]
  constructor
  · rintro ⟨⟨a, b⟩, hm, h1, h2⟩
    cases h1; cases h2; exact hm
  · intro h
    exact ⟨(u, v), h, rfl, rfl⟩

theorem kahnAux_succ_none (es : List (String × String)) (fuel : Nat) (rem : List String)
    (h : rem.find? (noRemPred es rem) = none) : kahnAux es (fuel + 1) rem = [] := by
  simp [kahnAux, h]

theorem kahnAux_succ_some (es : List (String × String)) (fuel : Nat) (rem : List String)
    (v : String) (h : rem.find? (noRemPred es rem) = some v) :
    kahnAux es (fuel + 1) rem = v :: kahnAux es fuel (rem.erase v) := by
  simp [kahnAux, h]

theorem kahnAux_subset (es : List (String × String)) :
    ∀ (fuel : Nat) (rem : List String), kahnAux es fuel rem ⊆ rem := by
  intro fuel
  induction fuel with
  | zero => intro rem; simp [kahnAux]
  | succ fuel ih =>
    intro rem
    cases hfind : rem.find? (noRemPred es rem) with
    | none => rw [kahnAux_succ_none es fuel rem hfind]; simp
    | some v =>
      rw [kahnAux_succ_some es fuel rem v hfind]
      have hv : v ∈ rem := List.mem_of_find?_eq_some hfind
      refine List.cons_subset.mpr ⟨hv, (ih (rem.erase v)).trans ?_⟩
      intro x hx
      exact List.mem_of_mem_erase hx

theorem kahnAux_nodup (es : List (String × String)) :
    ∀ (fuel : Nat) (rem : List String), rem.Nodup → (kahnAux es fuel rem).Nodup := by
  intro fuel
  induction fuel with
  | zero => intro rem _; simp [kahnAux]
  | succ fuel ih =>
    intro rem hnd
    cases hfind : rem.find? (noRemPred es rem) with
    | none => rw [kahnAux_succ_none es fuel rem hfind]; simp
    | some v =>
      rw [kahnAux_succ_some es fuel rem v hfind]
      refine List.nodup_cons.mpr ⟨?_, ih (rem.erase v) (hnd.erase v)⟩
      intro hvtail
      have hvin : v ∈ rem.erase v := kahnAux_subset es fuel (rem.erase v) hvtail
      exact absurd ((hnd.mem_erase_iff).mp hvin).1 (by simp)

theorem kahnAux_length_le (es : List (String × String)) :
    ∀ (fuel : Nat) (rem : List String), (kahnAux es fuel rem).length ≤ rem.length := by
  intro fuel
  induction fuel with
  | zero => intro rem; simp [kahnAux]
  | succ fuel ih =>
    intro rem
    cases hfind : rem.find? (noRemPred es rem) with
    | none => rw [kahnAux_succ_none es fuel rem hfind]; simp
    | some v =>
      rw [kahnAux_succ_some es fuel rem v hfind]
      have hv : v ∈ rem := List.mem_of_find?_eq_some hfind
      have h1 := ih (rem.erase v)
      have h2 := List.length_erase_of_mem hv
      have h3 : 0 < rem.length := List.length_pos.mpr (List.ne_nil_of_mem hv)
      simp only [List.length_cons]
      omega

theorem kahnAux_perm (es : List (String × String)) (fuel : Nat) (rem : List String)
    (hnd : rem.Nodup) (hlen : (kahnAux es fuel rem).length = rem.length) :
    (kahnAux es fuel rem).Perm rem :=
  ((kahnAux_nodup es fuel rem hnd).subperm
    (kahnAux_subset es fuel rem)).perm_of_length_le (le_of_eq hlen.symm)

theorem kahnAux_forward (es : List (String × String)) :
    ∀ (fuel : Nat) (rem : List String), rem.Nodup →
      (kahnAux es fuel rem).length = rem.length →
      ∀ (l1 : List String) (u : String) (l2 : List String),
        kahnAux es fuel rem = l1 ++ u :: l2 →
        ∀ p, isEdge es p u = true → p ∈ rem → p ∈ l1 := by
  intro fuel
  induction fuel with
  | zero =>
    intro rem hnd hlen l1 u l2 hdec p hedge hp
    rw [show kahnAux es 0 rem = [] from rfl] at hdec
    have := congrArg List.length hdec
    simp at this
    exact (by omega : False).elim
  | succ fuel ih =>
    intro rem hnd hlen l1 u l2 hdec p hedge hp
    cases hfind : rem.find? (noRemPred es rem) with
    | none =>
      rw [kahnAux_succ_none es fuel rem hfind] at hdec
      have := congrArg List.length hdec
      simp at this
      exact (by omega : False).elim
    | some v =>
      rw [kahnAux_succ_some es fuel rem v hfind] at hdec hlen
      have hv : v ∈ rem := List.mem_of_find?_eq_some hfind
      have hnp : noRemPred es rem v = true := List.find?_some hfind
      have hlen2 : (kahnAux es fuel (rem.erase v)).length = (rem.erase v).length := by
        have h2 := List.length_erase_of_mem hv
        have h3 : 0 < rem.length := List.length_pos.mpr (List.ne_nil_of_mem hv)
        simp only [List.length_cons] at hlen
        omega
      cases l1 with
      | nil =>
        simp only [List.nil_append] at hdec
        injection hdec with h1 h2
        exfalso
        rw [noRemPred, Bool.not_eq_true', List.any_eq_false] at hnp
        exact hnp p hp (h1 ▸ hedge)
      | cons w l1t =>
        simp only [List.cons_append] at hdec
        injection hdec with h1 h2
        by_cases hpv : p = v
        · rw [h1] at hpv
          rw [hpv]
          exact List.mem_cons_self w l1t
        · have hpe : p ∈ rem.erase v := (hnd.mem_erase_iff).mpr ⟨hpv, hp⟩
          have := ih (rem.erase v) (hnd.erase v) hlen2 l1t u l2 h2 p hedge hpe
          exact List.mem_cons_of_mem w this

/-- Descending sample of an infinite sequence: the list
f (i+k-1), f (i+k-2), ..., f i. -/
def downChain {α : Type} (f : Nat → α) (i : Nat) : Nat → List α
  | 0 => []
  | k + 1 => f (i + k) :: downChain f i k

theorem downChain_chain {α : Type} (R : α → α → Prop) (f : Nat → α)
    (hstep : ∀ n, R (f (n + 1)) (f n)) (i : Nat) :
    ∀ k, List.Chain R (f (i + k)) (downChain f i k) := by
  intro k
  induction k with
  | zero => exact List.Chain.nil
  | succ k ihk => exact List.Chain.cons (hstep (i + k)) ihk

theorem downChain_concat {α : Type} (f : Nat → α) (i : Nat) :
    ∀ k, ∃ q, downChain f i (k + 1) = q ++ [f i] := by
  intro k
  induction k with
  | zero => exact ⟨[], rfl⟩
  | succ k ihk =>
    obtain ⟨q, hq⟩ := ihk
    exact ⟨f (i + (k + 1)) :: q, by rw [downChain, hq, List.cons_append]⟩

theorem cycle_of_all_have_pred {α : Type} (R : α → α → Prop) (rem : List α)
    (hne : rem ≠ []) (hall : ∀ v ∈ rem, ∃ u ∈ rem, R u v) :
    ∃ v p, List.Chain R v (p ++ [v]) := by
  classical
  have hpick : ∀ v : {x // x ∈ rem}, ∃ u : {x // x ∈ rem}, R u.1 v.1 := by
    rintro ⟨v, hv⟩
    obtain ⟨u, hu, hru⟩ := hall v hv
    exact ⟨⟨u, hu⟩, hru⟩
  choose pick hpickR using hpick
  let f : Nat → {x // x ∈ rem} :=
    fun n => Nat.rec ⟨rem.head hne, List.head_mem hne⟩ (fun _ prev => pick prev) n
  have hstep : ∀ n, R (f (n + 1)).1 (f n).1 := fun n => hpickR (f n)
  have hmaps : ∀ i : Fin (rem.length + 1), (f i.1).1 ∈ rem.toFinset :=
    fun i => List.mem_toFinset.mpr (f i.1).2
  have hcard : rem.toFinset.card < (Finset.univ : Finset (Fin (rem.length + 1))).card := by
    have h1 : rem.toFinset.card ≤ rem.length := rem.toFinset_card_le
    rw [Finset.card_univ, Fintype.card_fin]
    omega
  obtain ⟨i, -, j, -, hij, hfij⟩ :=
    Finset.exists_ne_map_eq_of_card_lt_of_maps_to hcard (fun i _ => hmaps i)
  have hij' : i.1 ≠ j.1 := fun h => hij (Fin.ext h)
  obtain ⟨a, b, hab, hfab⟩ : ∃ a b : Nat, a < b ∧ (f a).1 = (f b).1 := by
    rcases Nat.lt_or_ge i.1 j.1 with h | h
    · exact ⟨i.1, j.1, h, hfij⟩
    · exact ⟨j.1, i.1, Nat.lt_of_le_of_ne h (Ne.symm hij'), hfij.symm⟩
  have hm : b = a + ((b - a - 1) + 1) := by omega
  obtain ⟨q, hq⟩ := downChain_concat (fun n => (f n).1) a (b - a - 1)
  have hchain := downChain_chain R (fun n => (f n).1) hstep a ((b - a - 1) + 1)
  rw [hq, ← hm, hfab] at hchain
  exact ⟨(f b).1, q, hchain⟩

theorem kahnAux_complete (es : List (String × String)) :
    ∀ (fuel : Nat) (rem : List String), rem.length ≤ fuel → rem.Nodup →
      (¬ ∃ v p, List.Chain (fun a b => isEdge es a b = true) v (p ++ [v])) →
      (kahnAux es fuel rem).length = rem.length := by
  intro fuel
  induction fuel with
  | zero =>
    intro rem hf _ _
    have : rem = [] := List.eq_nil_of_length_eq_zero (Nat.le_zero.mp hf)
    simp [this, kahnAux]
  | succ fuel ih =>
    intro rem hf hnd hnc
    cases hfind : rem.find? (noRemPred es rem) with
    | some v =>
      rw [kahnAux_succ_some es fuel rem v hfind]
      have hv : v ∈ rem := List.mem_of_find?_eq_some hfind
      have h2 := List.length_erase_of_mem hv
      have h3 : 0 < rem.length := List.length_pos.mpr (List.ne_nil_of_mem hv)
      have h1 : (kahnAux es fuel (rem.erase v)).length = (rem.erase v).length := by
        apply ih
        · omega
        · exact hnd.erase v
        · exact hnc
      simp only [List.length_cons]
      omega
    | none =>
      by_cases hne : rem = []
      · subst hne
        rw [kahnAux_succ_none es fuel [] hfind]
      · exfalso
        apply hnc
        apply cycle_of_all_have_pred (fun a b => isEdge es a b = true) rem hne
        intro v hv
        have hnot := List.find?_eq_none.mp hfind v hv
        rw [noRemPred] at hnot
        simp only [Bool.not_eq_true', Bool.not_eq_false] at hnot
        obtain ⟨u, hu, hedge⟩ := List.any_eq_true.mp hnot
        exact ⟨u, hu, hedge⟩

theorem kahn_complete_of_acyclic (g : DiGraph) (hwf : WF g) (hnc : ¬ HasCycle g) :
    (kahn g).length = (g.nodes.map Prod.fst).length :=
  kahnAux_complete g.edges (g.nodes.map Prod.fst).length (g.nodes.map Prod.fst)
    le_rfl hwf.1 hnc

theorem mem_decomp_indexOf {α : Type} [DecidableEq α] (T : List α) (b : α) (hb : b ∈ T) :
    ∃ l1 l2, T = l1 ++ b :: l2 ∧ l1.length = T.indexOf b := by
  induction T with
  | nil => simp at hb
  | cons t T ih =>
    by_cases hbt : b = t
    · subst hbt
      exact ⟨[], T, rfl, by simp⟩
    · have hb2 : b ∈ T := by
        rcases List.mem_cons.mp hb with h | h
        · exact absurd h hbt
        · exact h
      obtain ⟨l1, l2, hdec, hlen⟩ := ih hb2
      refine ⟨t :: l1, l2, by rw [hdec, List.cons_append], ?_⟩
      rw [List.indexOf_cons_ne T (fun h => hbt h.symm)]
      simp [hlen]

theorem indexOf_append_lt {α : Type} [DecidableEq α] (l1 l2 : List α) (a : α)
    (ha : a ∈ l1) : (l1 ++ l2).indexOf a < l1.length := by
  induction l1 with
  | nil => simp at ha
  | cons t l1 ih =>
    by_cases hat : a = t
    · subst hat
      simp [List.indexOf_cons_self]
    · have ha2 : a ∈ l1 := by
        rcases List.mem_cons.mp ha with h | h
        · exact absurd h hat
        · exact h
      rw [List.cons_append, List.indexOf_cons_ne (l1 ++ l2) (fun h => hat h.symm)]
      simp only [List.length_cons]
      exact Nat.succ_lt_succ (ih ha2)

theorem kahn_edge_idx_lt (g : DiGraph) (hwf : WF g)
    (hcomp : (kahn g).length = (g.nodes.map Prod.fst).length)
    (p u : String) (hedge : isEdge g.edges p u = true) :
    (kahn g).indexOf p < (kahn g).indexOf u := by
  have hmem := (isEdge_iff g.edges p u).mp hedge
  have hpu := hwf.2.2 (p, u) hmem
  have hperm := kahnAux_perm g.edges (g.nodes.map Prod.fst).length
    (g.nodes.map Prod.fst) hwf.1 hcomp
  have huT : u ∈ kahn g := hperm.mem_iff.mpr hpu.2
  obtain ⟨l1, l2, hdec, hlen⟩ := mem_decomp_indexOf (kahn g) u huT
  have hpl1 : p ∈ l1 := kahnAux_forward g.edges (g.nodes.map Prod.fst).length
    (g.nodes.map Prod.fst) hwf.1 hcomp l1 u l2 hdec p hedge hpu.1
  calc (kahn g).indexOf p = (l1 ++ u :: l2).indexOf p := by rw [← hdec]
    _ < l1.length := indexOf_append_lt l1 (u :: l2) p hpl1
    _ = (kahn g).indexOf u := hlen

theorem chain_f_lt {α : Type} (R : α → α → Prop) (f : α → Nat)
    (hR : ∀ a b, R a b → f a < f b) :
    ∀ (v : α) (l : List α) (h : l ≠ []), List.Chain R v l → f v < f (l.getLast h) := by
  intro v l
  induction l generalizing v with
  | nil => intro h; exact absurd rfl h
  | cons b l ih =>
    intro h hch
    cases hch with
    | cons hstep htail =>
      cases l with
      | nil => simpa [List.getLast] using hR v b hstep
      | cons c l2 =>
        have h2 : f b < f ((c :: l2).getLast (by simp)) := ih b (by simp) htail
        rw [List.getLast_cons (by simp : (c :: l2) ≠ [])]
        exact (hR v b hstep).trans h2

theorem not_hasCycle_of_complete (g : DiGraph) (hwf : WF g)
    (hcomp : (kahn g).length = (g.nodes.map Prod.fst).length) : ¬ HasCycle g := by
  rintro ⟨v, p, hch⟩
  have hR : ∀ a b, isEdge g.edges a b = true →
      (kahn g).indexOf a < (kahn g).indexOf b :=
    fun a b h => kahn_edge_idx_lt g hwf hcomp a b h
  have hne : p ++ [v] ≠ [] := by simp
  have hlt := chain_f_lt (fun a b => isEdge g.edges a b = true)
    (fun x => (kahn g).indexOf x) hR v (p ++ [v]) hne hch
  have hlast : (p ++ [v]).getLast hne = v := by
    have h1 := List.getLast?_eq_getLast (p ++ [v]) hne
    rw [List.getLast?_concat] at h1
    exact (Option.some.injEq _ _ ▸ h1.symm :)
  rw [hlast] at hlt
  exact Nat.lt_irrefl _ hlt

/-- C2: on any graph containing a directed cycle, whatever its length
or position, validate_graph raises the cycle ValueError before any
further computation, and in particular never returns a critical-path
result. -/
theorem claim_C2 (g : DiGraph) (hwf : WF g) (hcyc : HasCycle g) :
    validate_graph g = .error .cycle := by
  by_cases hcomp : (kahn g).length = (g.nodes.map Prod.fst).length
  · exact absurd hcyc (not_hasCycle_of_complete g hwf hcomp)
  · simp only [validate_graph]
    simp only [List.length_map] at hcomp ⊢
    rw [if_neg hcomp]

/-- The two-node cyclic graph build_graph produces from mutually
dependent tasks A and B. -/
def cycG : DiGraph := ⟨[("A", 1), ("B", 1)], [("B", "A"), ("A", "B")]⟩

theorem claim_C2_witness : validate_graph cycG = .error .cycle :=
  claim_C2 cycG ⟨by decide, by decide, by decide⟩
    ⟨"A", ["B"], List.Chain.cons rfl (List.Chain.cons rfl List.Chain.nil)⟩

/-- The final values of the earliest_finish dict. -/
def efVal (g : DiGraph) (u : String) : Int := lookupInt (dpRun g).ef u

/-- The final values of the parent dict. -/
def parVal (g : DiGraph) (u : String) : Option (Option String) :=
  lookupPar (dpRun g).par u

theorem find?_key_append_left {β : Type} (m m2 : List (String × β)) (k : String)
    (hk : k ∈ m.map Prod.fst) :
    (m ++ m2).find? (fun p => p.1 = k) = m.find? (fun p => p.1 = k) := by
  rw [List.find?_append]
  have hs : (m.find? (fun p => decide (p.1 = k))).isSome := by
    rw [List.find?_isSome]
    obtain ⟨q, hq, hqk⟩ := List.mem_map.mp hk
    exact ⟨q, hq, by simp [hqk]⟩
  obtain ⟨q, hq⟩ := Option.isSome_iff_exists.mp hs
  rw [hq]
  rfl

theorem find?_key_none {β : Type} (m : List (String × β)) (k : String)
    (hk : k ∉ m.map Prod.fst) : m.find? (fun p => p.1 = k) = none := by
  rw [List.find?_eq_none]
  intro q hq
  simp only [decide_eq_true_eq]
  intro hqk
  exact hk (List.mem_map.mpr ⟨q, hq, hqk⟩)

theorem find?_key_append_right {β : Type} (m m3 : List (String × β)) (k : String) (x : β)
    (hk : k ∉ m.map Prod.fst) :
    (m ++ (k, x) :: m3).find? (fun p => p.1 = k) = some (k, x) := by
  rw [List.find?_append, find?_key_none m k hk, Option.none_or]
  exact List.find?_cons_of_pos _ (by simp)

theorem lookupInt_append_left (m m2 : List (String × Int)) (k : String)
    (hk : k ∈ m.map Prod.fst) : lookupInt (m ++ m2) k = lookupInt m k := by
  rw [lookupInt, lookupInt, find?_key_append_left m m2 k hk]

theorem lookupInt_append_mid (m m3 : List (String × Int)) (k : String) (x : Int)
    (hk : k ∉ m.map Prod.fst) : lookupInt (m ++ (k, x) :: m3) k = x := by
  rw [lookupInt, find?_key_append_right m m3 k x hk]

theorem lookupPar_append_mid (m m3 : List (String × Option String)) (k : String)
    (x : Option String) (hk : k ∉ m.map Prod.fst) :
    lookupPar (m ++ (k, x) :: m3) k = some x := by
  rw [lookupPar, find?_key_append_right m m3 k x hk]
  rfl

theorem foldl_max_spec (f : String → Int) :
    ∀ (xs : List String) (x : String),
      xs.foldl (fun b y => if f b < f y then y else b) x ∈ x :: xs ∧
      f x ≤ f (xs.foldl (fun b y => if f b < f y then y else b) x) ∧
      ∀ y ∈ xs, f y ≤ f (xs.foldl (fun b y => if f b < f y then y else b) x) := by
  intro xs
  induction xs with
  | nil => intro x; exact ⟨by simp, le_refl _, by simp⟩
  | cons y ys ih =>
    intro x
    simp only [List.foldl_cons]
    obtain ⟨hmem, hle, hall⟩ := ih (if f x < f y then y else x)
    refine ⟨?_, ?_, ?_⟩
    · rcases List.mem_cons.mp hmem with h | h
      · rw [h]
        by_cases hxy : f x < f y
        · simp [hxy]
        · simp [hxy]
      · simp [h]
    · refine le_trans ?_ hle
      by_cases hxy : f x < f y
      · simp only [if_pos hxy]
        exact le_of_lt hxy
      · simp [hxy]
    · intro z hz
      rcases List.mem_cons.mp hz with h | h
      · refine le_trans ?_ hle
        rw [h]
        by_cases hxy : f x < f y
        · simp [hxy]
        · simp only [if_neg hxy]
          exact le_of_not_lt hxy
      · exact hall z h

theorem firstMax_mem (f : String → Int) (l : List String) (m : String)
    (h : firstMax f l = some m) : m ∈ l := by
  cases l with
  | nil => simp [firstMax] at h
  | cons x xs =>
    have hm : m = xs.foldl (fun b y => if f b < f y then y else b) x :=
      (Option.some.inj h).symm
    rw [hm]
    exact (foldl_max_spec f xs x).1

theorem firstMax_le (f : String → Int) (l : List String) (m : String)
    (h : firstMax f l = some m) : ∀ y ∈ l, f y ≤ f m := by
  cases l with
  | nil => intro y hy; simp at hy
  | cons x xs =>
    have hm : m = xs.foldl (fun b y => if f b < f y then y else b) x :=
      (Option.some.inj h).symm
    intro y hy
    rcases List.mem_cons.mp hy with h1 | h1
    · rw [hm, h1]
      exact (foldl_max_spec f xs x).2.1
    · rw [hm]
      exact (foldl_max_spec f xs x).2.2 y h1

theorem foldl_max_congr (f f2 : String → Int) :
    ∀ (xs : List String) (x : String), (∀ z ∈ x :: xs, f z = f2 z) →
      xs.foldl (fun b y => if f b < f y then y else b) x =
        xs.foldl (fun b y => if f2 b < f2 y then y else b) x := by
  intro xs
  induction xs with
  | nil => intro x _; rfl
  | cons y ys ih =>
    intro x hag
    simp only [List.foldl_cons]
    have hx : f x = f2 x := hag x (by simp)
    have hy : f y = f2 y := hag y (by simp)
    have hacc : (if f2 x < f2 y then y else x) = (if f x < f y then y else x) := by
      rw [hx, hy]
    rw [← hacc]
    have hsub : ∀ z ∈ (if f2 x < f2 y then y else x) :: ys, z ∈ x :: y :: ys := by
      intro z hz
      rcases List.mem_cons.mp hz with h | h
      · subst h
        by_cases hxy : f2 x < f2 y
        · simp [hxy]
        · simp [hxy]
      · simp [h]
    exact ih _ (fun z hz => hag z (hsub z hz))

theorem firstMax_congr (f f2 : String → Int) (l : List String)
    (h : ∀ x ∈ l, f x = f2 x) : firstMax f l = firstMax f2 l := by
  cases l with
  | nil => rfl
  | cons x xs =>
    show some _ = some _
    rw [foldl_max_congr f f2 xs x h]

theorem firstMax_eq_none (f : String → Int) (l : List String) :
    firstMax f l = none ↔ l = [] := by
  cases l with
  | nil => simp [firstMax]
  | cons x xs => simp [firstMax]

theorem mem_predsOf_iff (g : DiGraph) (p u : String) :
    p ∈ predsOf g u ↔ (p, u) ∈ g.edges := by
  simp only [predsOf, List.mem_map, List.mem_filter, decide_eq_true_eq]
  constructor
  · rintro ⟨⟨a, b⟩, ⟨he, hb⟩, ha⟩
    simp only at ha hb
    rw [← ha, ← hb]
    exact he
  · intro h
    exact ⟨(p, u), ⟨h, rfl⟩, rfl⟩

theorem preds_before (g : DiGraph) (hwf : WF g)
    (hcomp : (kahn g).length = (g.nodes.map Prod.fst).length)
    (l1 : List String) (u : String) (l2 : List String)
    (hdec : kahn g = l1 ++ u :: l2) :
    ∀ p ∈ predsOf g u, p ∈ l1 := by
  intro p hp
  have hedgeMem : (p, u) ∈ g.edges := (mem_predsOf_iff g p u).mp hp
  have hedge : isEdge g.edges p u = true := (isEdge_iff g.edges p u).mpr hedgeMem
  have hpn : p ∈ g.nodes.map Prod.fst := (hwf.2.2 (p, u) hedgeMem).1
  exact kahnAux_forward g.edges (g.nodes.map Prod.fst).length (g.nodes.map Prod.fst)
    hwf.1 hcomp l1 u l2 hdec p hedge hpn

theorem dp_extends (g : DiGraph) :
    ∀ (P : List String) (st : DPState),
      ∃ m2 m3, (P.foldl (dpStep g) st).ef = st.ef ++ m2 ∧
        (P.foldl (dpStep g) st).par = st.par ++ m3 ∧
        m2.map Prod.fst = P ∧ m3.map Prod.fst = P := by
  intro P
  induction P with
  | nil => intro st; exact ⟨[], [], by simp, by simp, rfl, rfl⟩
  | cons u P ih =>
    intro st
    obtain ⟨m2, m3, h1, h2, h3, h4⟩ := ih (dpStep g st u)
    cases hfm : firstMax (lookupInt st.ef) (predsOf g u) with
    | some p =>
      refine ⟨(u, lookupInt st.ef p + durOf g u) :: m2, (u, some p) :: m3,
        ?_, ?_, ?_, ?_⟩
      · rw [List.foldl_cons, h1]
        simp [dpStep, hfm]
      · rw [List.foldl_cons, h2]
        simp [dpStep, hfm]
      · simp [h3]
      · simp [h4]
    | none =>
      refine ⟨(u, durOf g u) :: m2, (u, (none : Option String)) :: m3, ?_, ?_, ?_, ?_⟩
      · rw [List.foldl_cons, h1]
        simp [dpStep, hfm]
      · rw [List.foldl_cons, h2]
        simp [dpStep, hfm]
      · simp [h3]
      · simp [h4]

theorem dp_ef_parval (g : DiGraph) (hwf : WF g)
    (hcomp : (kahn g).length = (g.nodes.map Prod.fst).length)
    (l1 : List String) (u : String) (l2 : List String)
    (hdec : kahn g = l1 ++ u :: l2) :
    efVal g u = (match firstMax (efVal g) (predsOf g u) with
       | some p => efVal g p
       | none => 0) + durOf g u ∧
    parVal g u = some (firstMax (efVal g) (predsOf g u)) := by
  have hTnd : (kahn g).Nodup := kahnAux_nodup g.edges _ _ hwf.1
  have hund : u ∉ l1 := by
    rw [hdec] at hTnd
    rcases List.nodup_append.mp hTnd with ⟨-, -, hdisj⟩
    intro hu
    exact hdisj hu (List.mem_cons_self u l2)
  obtain ⟨m2, m3, hef2, hpar2, hk2, hk3⟩ := dp_extends g l1 ⟨[], []⟩
  set stPre := l1.foldl (dpStep g) (⟨[], []⟩ : DPState) with hstPre
  have hefkeys : stPre.ef.map Prod.fst = l1 := by
    rw [hef2]
    simpa using hk2
  have hparkeys : stPre.par.map Prod.fst = l1 := by
    rw [hpar2]
    simpa using hk3
  have hruneq : dpRun g = l2.foldl (dpStep g) (dpStep g stPre u) := by
    rw [dpRun, hdec, List.foldl_append, List.foldl_cons]
  obtain ⟨n2, n3, hef4, hpar4, hk4, hk5⟩ := dp_extends g l2 (dpStep g stPre u)
  have hpredsl1 := preds_before g hwf hcomp l1 u l2 hdec
  cases hfm : firstMax (lookupInt stPre.ef) (predsOf g u) with
  | some p =>
    have hefmid : (dpStep g stPre u).ef
        = stPre.ef ++ [(u, lookupInt stPre.ef p + durOf g u)] := by
      simp [dpStep, hfm]
    have hparmid : (dpStep g stPre u).par = stPre.par ++ [(u, some p)] := by
      simp [dpStep, hfm]
    have hefall : (dpRun g).ef
        = stPre.ef ++ ((u, lookupInt stPre.ef p + durOf g u) :: n2) := by
      rw [hruneq, hef4, hefmid, List.append_assoc, List.singleton_append]
    have hparall : (dpRun g).par = stPre.par ++ ((u, some p) :: n3) := by
      rw [hruneq, hpar4, hparmid, List.append_assoc, List.singleton_append]
    have hstable : ∀ q ∈ l1, efVal g q = lookupInt stPre.ef q := by
      intro q hq
      rw [efVal, hefall]
      exact lookupInt_append_left stPre.ef _ q (by rw [hefkeys]; exact hq)
    have hfm2 : firstMax (efVal g) (predsOf g u) = some p := by
      rw [← hfm]
      exact firstMax_congr (efVal g) (lookupInt stPre.ef) (predsOf g u)
        (fun x hx => hstable x (hpredsl1 x hx))
    have hu_efval : efVal g u = lookupInt stPre.ef p + durOf g u := by
      rw [efVal, hefall]
      exact lookupInt_append_mid stPre.ef n2 u _ (by rw [hefkeys]; exact hund)
    have hp_ef : efVal g p = lookupInt stPre.ef p :=
      hstable p (hpredsl1 p (firstMax_mem _ _ _ hfm))
    constructor
    · rw [hu_efval, hfm2]
      show lookupInt stPre.ef p + durOf g u = efVal g p + durOf g u
      rw [hp_ef]
    · rw [hfm2, parVal, hparall]
      exact lookupPar_append_mid stPre.par n3 u (some p) (by rw [hparkeys]; exact hund)
  | none =>
    have hprednil : predsOf g u = [] := (firstMax_eq_none _ _).mp hfm
    have hefmid : (dpStep g stPre u).ef = stPre.ef ++ [(u, durOf g u)] := by
      simp [dpStep, hfm]
    have hparmid : (dpStep g stPre u).par = stPre.par ++ [(u, (none : Option String))] := by
      simp [dpStep, hfm]
    have hefall : (dpRun g).ef = stPre.ef ++ ((u, durOf g u) :: n2) := by
      rw [hruneq, hef4, hefmid, List.append_assoc, List.singleton_append]
    have hparall : (dpRun g).par = stPre.par ++ ((u, (none : Option String)) :: n3) := by
      rw [hruneq, hpar4, hparmid, List.append_assoc, List.singleton_append]
    have hfm2 : firstMax (efVal g) (predsOf g u) = none := by
      rw [hprednil]
      rfl
    have hu_efval : efVal g u = durOf g u := by
      rw [efVal, hefall]
      exact lookupInt_append_mid stPre.ef n2 u _ (by rw [hefkeys]; exact hund)
    constructor
    · rw [hfm2]
      show efVal g u = 0 + durOf g u
      rw [hu_efval, zero_add]
    · rw [hfm2, parVal, hparall]
      exact lookupPar_append_mid stPre.par n3 u none (by rw [hparkeys]; exact hund)

theorem durOf_nonneg (g : DiGraph) (hnn : ∀ nd ∈ g.nodes, 0 ≤ nd.2) (u : String) :
    0 ≤ durOf g u := by
  rw [durOf, lookupInt]
  cases hf : g.nodes.find? (fun p => p.1 = u) with
  | none => exact le_refl 0
  | some nd => exact hnn nd (List.mem_of_find?_eq_some hf)

theorem dp_ef_nonneg (g : DiGraph) (hwf : WF g)
    (hcomp : (kahn g).length = (g.nodes.map Prod.fst).length)
    (hnn : ∀ nd ∈ g.nodes, 0 ≤ nd.2) :
    ∀ u ∈ kahn g, 0 ≤ efVal g u := by
  suffices H : ∀ n, ∀ u ∈ kahn g, (kahn g).indexOf u = n → 0 ≤ efVal g u by
    exact fun u hu => H ((kahn g).indexOf u) u hu rfl
  intro n
  induction n using Nat.strong_induction_on with
  | _ n ih =>
    intro u hu hidx
    obtain ⟨l1, l2, hdec, hlen⟩ := mem_decomp_indexOf (kahn g) u hu
    obtain ⟨hef, -⟩ := dp_ef_parval g hwf hcomp l1 u l2 hdec
    have hdnn : 0 ≤ durOf g u := durOf_nonneg g hnn u
    rw [hef]
    cases hfm : firstMax (efVal g) (predsOf g u) with
    | none => simpa using hdnn
    | some p =>
      have hpl1 := preds_before g hwf hcomp l1 u l2 hdec p (firstMax_mem _ _ _ hfm)
      have hpidx : (kahn g).indexOf p < n := by
        have h1 := indexOf_append_lt l1 (u :: l2) p hpl1
        rw [← hdec] at h1
        omega
      have hpT : p ∈ kahn g := by
        rw [hdec]
        exact List.mem_append_left _ hpl1
      have h0p := ih _ hpidx p hpT rfl
      exact add_nonneg h0p hdnn

theorem walk_le_efVal (g : DiGraph) (hwf : WF g)
    (hcomp : (kahn g).length = (g.nodes.map Prod.fst).length)
    (hnn : ∀ nd ∈ g.nodes, 0 ≤ nd.2) :
    ∀ (w : List String) (u : String), ValidWalk g w → w.getLast? = some u →
      walkWeight g w ≤ efVal g u := by
  intro w
  induction w using List.reverseRecOn with
  | nil => intro u hvw _; exact absurd rfl hvw.1
  | append_singleton w0 x ih =>
    intro u hvw hlast
    rw [List.getLast?_concat] at hlast
    have hxu : x = u := Option.some.inj hlast
    subst hxu
    obtain ⟨hne, hmem, hch⟩ := hvw
    have hxN : x ∈ g.nodes.map Prod.fst := hmem x (by simp)
    have hxT : x ∈ kahn g :=
      (kahnAux_perm g.edges _ _ hwf.1 hcomp).mem_iff.mpr hxN
    obtain ⟨l1, l2, hdec, -⟩ := mem_decomp_indexOf (kahn g) x hxT
    obtain ⟨hef, -⟩ := dp_ef_parval g hwf hcomp l1 x l2 hdec
    rcases List.eq_nil_or_concat w0 with hw0 | ⟨w1, v0, hw0⟩
    · subst hw0
      have hwt : walkWeight g ([] ++ [x]) = durOf g x := by simp [walkWeight]
      rw [hwt, hef]
      cases hfm : firstMax (efVal g) (predsOf g x) with
      | none => simp [hfm]
      | some p =>
        have hpT : p ∈ kahn g := by
          have hpm := firstMax_mem _ _ _ hfm
          have hpe := (mem_predsOf_iff g p x).mp hpm
          exact (kahnAux_perm g.edges _ _ hwf.1 hcomp).mem_iff.mpr (hwf.2.2 (p, x) hpe).1
        have h0 : 0 ≤ efVal g p := dp_ef_nonneg g hwf hcomp hnn p hpT
        show durOf g x ≤ efVal g p + durOf g x
        omega
    · have hw0ne : w0 ≠ [] := by rw [hw0]; simp
      obtain ⟨v, hv⟩ : ∃ v, w0.getLast? = some v :=
        ⟨w0.getLast hw0ne, List.getLast?_eq_getLast w0 hw0ne⟩
      obtain ⟨hch0, -, hlink⟩ := List.chain'_append.mp hch
      have hedge : isEdge g.edges v x = true := hlink v hv x rfl
      have hvw0 : ValidWalk g w0 :=
        ⟨hw0ne, fun z hz => hmem z (List.mem_append_left _ hz), hch0⟩
      have hih := ih v hvw0 hv
      have hvp : v ∈ predsOf g x :=
        (mem_predsOf_iff g v x).mpr ((isEdge_iff g.edges v x).mp hedge)
      have hwt : walkWeight g (w0 ++ [x]) = walkWeight g w0 + durOf g x := by
        simp [walkWeight]
      rw [hwt, hef]
      cases hfm : firstMax (efVal g) (predsOf g x) with
      | none =>
        rw [(firstMax_eq_none _ _).mp hfm] at hvp
        simp at hvp
      | some m =>
        have hvm : efVal g v ≤ efVal g m := firstMax_le _ _ _ hfm v hvp
        show walkWeight g w0 + durOf g x ≤ efVal g m + durOf g x
        omega

theorem backtrack_ne_nil (par : List (String × Option String)) :
    ∀ (n : Nat) (c : String), backtrack par n c ≠ [] := by
  intro n c
  cases n with
  | zero => simp [backtrack]
  | succ n =>
    rw [backtrack]
    cases lookupPar par c with
    | none => simp
    | some o =>
      cases o with
      | none => simp
      | some p => simp

theorem head?_append_left {α : Type} (l1 l2 : List α) (h : l1 ≠ []) :
    (l1 ++ l2).head? = l1.head? := by
  cases l1 with
  | nil => exact absurd rfl h
  | cons a t => rfl

theorem backtrack_path_spec (g : DiGraph) (hwf : WF g)
    (hcomp : (kahn g).length = (g.nodes.map Prod.fst).length) :
    ∀ (n : Nat) (u : String), u ∈ kahn g → (kahn g).indexOf u < n →
      ValidWalk g ((backtrack (dpRun g).par n u).reverse) ∧
      ((backtrack (dpRun g).par n u).reverse).getLast? = some u ∧
      walkWeight g ((backtrack (dpRun g).par n u).reverse) = efVal g u ∧
      (∃ r0, ((backtrack (dpRun g).par n u).reverse).head? = some r0 ∧
        predsOf g r0 = []) := by
  intro n
  induction n with
  | zero => intro u _ hidx; exact absurd hidx (Nat.not_lt_zero _)
  | succ n ih =>
    intro u hu hidx
    obtain ⟨l1, l2, hdec, hlen⟩ := mem_decomp_indexOf (kahn g) u hu
    obtain ⟨hef, hpar⟩ := dp_ef_parval g hwf hcomp l1 u l2 hdec
    have huN : u ∈ g.nodes.map Prod.fst :=
      (kahnAux_perm g.edges _ _ hwf.1 hcomp).mem_iff.mp hu
    cases hfm : firstMax (efVal g) (predsOf g u) with
    | none =>
      have hparu : lookupPar (dpRun g).par u = some none := by
        rw [← parVal, hpar, hfm]
      have hbt : backtrack (dpRun g).par (n + 1) u = [u] := by
        rw [backtrack, hparu]
      rw [hbt]
      refine ⟨⟨by simp, ?_, by simp⟩, by simp, ?_, ⟨u, by simp, ?_⟩⟩
      · intro z hz
        simp at hz
        rw [hz]
        exact huN
      · have : walkWeight g [u] = durOf g u := by simp [walkWeight]
        simp only [List.reverse_singleton]
        rw [this, hef, hfm]
        simp
      · exact (firstMax_eq_none _ _).mp hfm
    | some p =>
      have hparu : lookupPar (dpRun g).par u = some (some p) := by
        rw [← parVal, hpar, hfm]
      have hbt : backtrack (dpRun g).par (n + 1) u
          = u :: backtrack (dpRun g).par n p := by
        rw [backtrack, hparu]
      have hpmem := firstMax_mem _ _ _ hfm
      have hpl1 := preds_before g hwf hcomp l1 u l2 hdec p hpmem
      have hpT : p ∈ kahn g := by
        rw [hdec]
        exact List.mem_append_left _ hpl1
      have hpidx : (kahn g).indexOf p < n := by
        have h1 := indexOf_append_lt l1 (u :: l2) p hpl1
        rw [← hdec] at h1
        omega
      obtain ⟨⟨hne0, hmem0, hch0⟩, hlast0, hwt0, r0, hr0, hr0p⟩ := ih p hpT hpidx
      have hedge : isEdge g.edges p u = true :=
        (isEdge_iff g.edges p u).mpr ((mem_predsOf_iff g p u).mp hpmem)
      have hrevne : (backtrack (dpRun g).par n p).reverse ≠ [] := by
        simp [backtrack_ne_nil]
      rw [hbt]
      have hrev : (u :: backtrack (dpRun g).par n p).reverse
          = (backtrack (dpRun g).par n p).reverse ++ [u] := by simp
      rw [hrev]
      refine ⟨⟨by simp, ?_, ?_⟩, ?_, ?_, ?_⟩
      · intro z hz
        rcases List.mem_append.mp hz with h | h
        · exact hmem0 z h
        · simp at h
          rw [h]
          exact huN
      · rw [List.chain'_append]
        refine ⟨hch0, List.chain'_singleton u, ?_⟩
        intro a ha b hb
        rw [hlast0] at ha
        simp at ha hb
        rw [← ha, ← hb]
        exact hedge
      · rw [List.getLast?_concat]
      · have hsplit : walkWeight g ((backtrack (dpRun g).par n p).reverse ++ [u])
            = walkWeight g ((backtrack (dpRun g).par n p).reverse) + durOf g u := by
          simp [walkWeight]
        rw [hsplit, hwt0, hef, hfm]
      · refine ⟨r0, ?_, hr0p⟩
        rw [head?_append_left _ _ hrevne]
        exact hr0

theorem validate_graph_ok (g : DiGraph) (hwf : WF g)
    (hcomp : (kahn g).length = (g.nodes.map Prod.fst).length)
    (hne : g.nodes ≠ []) :
    ∃ e, e ∈ kahn g ∧
      (∀ u ∈ kahn g, efVal g u ≤ efVal g e) ∧
      validate_graph g =
        .ok (efVal g e, (backtrack (dpRun g).par (kahn g).length e).reverse) := by
  obtain ⟨m2, m3, hef, hpar, hk2, hk3⟩ := dp_extends g (kahn g) ⟨[], []⟩
  have hkeys : (dpRun g).ef.map Prod.fst = kahn g := by
    rw [dpRun, hef]
    simpa using hk2
  have hTne : kahn g ≠ [] := by
    intro h
    rw [h] at hcomp
    have h2 : g.nodes.map Prod.fst = [] := List.eq_nil_of_length_eq_zero hcomp.symm
    exact hne (List.map_eq_nil.mp h2)
  have hkeysne : (dpRun g).ef.map Prod.fst ≠ [] := by
    rw [hkeys]
    exact hTne
  cases hfm : firstMax (lookupInt (dpRun g).ef) ((dpRun g).ef.map Prod.fst) with
  | none => exact absurd ((firstMax_eq_none _ _).mp hfm) hkeysne
  | some e =>
    have hmem := firstMax_mem _ _ _ hfm
    rw [hkeys] at hmem
    refine ⟨e, hmem, ?_, ?_⟩
    · intro u hu
      exact firstMax_le _ _ _ hfm u (by rw [hkeys]; exact hu)
    · have hcomp2 : (kahn g).length = g.nodes.length := by simpa using hcomp
      simp only [validate_graph, List.length_map]
      rw [if_pos hcomp2]
      show (match firstMax (lookupInt (dpRun g).ef) (List.map Prod.fst (dpRun g).ef) with
        | some e2 => Except.ok (lookupInt (dpRun g).ef e2,
            (backtrack (dpRun g).par (kahn g).length e2).reverse)
        | none => Except.error VErr.emptyMax) = _
      rw [hfm]
      rfl

/-- C1: whenever the analyzer returns on an acyclic dependency graph
(with the nonnegative durations the data model prescribes), the
expected_runtime it returns is exactly the maximum cumulative duration
over all directed walks of the graph: every walk weighs at most
expected_runtime, and some walk attains it. -/
theorem claim_C1 (g : DiGraph) (hwf : WF g) (hnn : ∀ nd ∈ g.nodes, 0 ≤ nd.2)
    (hnc : ¬ HasCycle g) (hne : g.nodes ≠ []) :
    ∃ r path, validate_graph g = .ok (r, path) ∧
      (∀ w, ValidWalk g w → walkWeight g w ≤ r) ∧
      (∃ w, ValidWalk g w ∧ walkWeight g w = r) := by
  have hcomp := kahn_complete_of_acyclic g hwf hnc
  obtain ⟨e, heT, hmax, hok⟩ := validate_graph_ok g hwf hcomp hne
  refine ⟨efVal g e, _, hok, ?_, ?_⟩
  · intro w hw
    have hwne := hw.1
    obtain ⟨u, hu⟩ : ∃ u, w.getLast? = some u :=
      ⟨w.getLast hwne, List.getLast?_eq_getLast w hwne⟩
    have huw : u ∈ w := by
      have h2 := List.getLast?_eq_getLast w hwne
      rw [h2] at hu
      rw [(Option.some.inj hu).symm]
      exact List.getLast_mem hwne
    have huT : u ∈ kahn g :=
      (kahnAux_perm g.edges _ _ hwf.1 hcomp).mem_iff.mpr (hw.2.1 u huw)
    exact le_trans (walk_le_efVal g hwf hcomp hnn w u hw hu) (hmax u huT)
  · have hidx : (kahn g).indexOf e < (kahn g).length := List.indexOf_lt_length.mpr heT
    obtain ⟨hvw, -, hwt, -⟩ := backtrack_path_spec g hwf hcomp (kahn g).length e heT hidx
    exact ⟨_, hvw, hwt⟩

theorem claim_C1_witness :
    ∃ r path, validate_graph diamondG = .ok (r, path) ∧
      (∀ w, ValidWalk diamondG w → walkWeight diamondG w ≤ r) ∧
      (∃ w, ValidWalk diamondG w ∧ walkWeight diamondG w = r) :=
  claim_C1 diamondG ⟨by decide, by decide, by decide⟩ (by decide)
    (not_hasCycle_of_complete diamondG ⟨by decide, by decide, by decide⟩ (by decide))
    (by decide)

/-- C4: whenever the analyzer returns on an acyclic graph, the path
it returns is nonempty, starts at a node without predecessors (zero
indegree), ends at the node whose earliest-finish value is maximal,
every consecutive pair along it is an edge of the graph, and the sum
of the durations along it equals the returned expected_runtime. -/
theorem claim_C4 (g : DiGraph) (hwf : WF g) (hnc : ¬ HasCycle g) (hne : g.nodes ≠ []) :
    ∃ r path, validate_graph g = .ok (r, path) ∧ path ≠ [] ∧
      (∃ r0, path.head? = some r0 ∧ predsOf g r0 = []) ∧
      List.Chain' (fun a b => isEdge g.edges a b = true) path ∧
      walkWeight g path = r ∧
      (∃ e, path.getLast? = some e ∧
        ∀ u ∈ g.nodes.map Prod.fst, lookupInt (efTable g) u ≤ lookupInt (efTable g) e) := by
  have hcomp := kahn_complete_of_acyclic g hwf hnc
  obtain ⟨e, heT, hmax, hok⟩ := validate_graph_ok g hwf hcomp hne
  have hidx : (kahn g).indexOf e < (kahn g).length := List.indexOf_lt_length.mpr heT
  obtain ⟨hvw, hlast, hwt, hroot⟩ :=
    backtrack_path_spec g hwf hcomp (kahn g).length e heT hidx
  have hperm := kahnAux_perm g.edges _ _ hwf.1 hcomp
  exact ⟨efVal g e, _, hok, hvw.1, hroot, hvw.2.2, hwt,
    e, hlast, fun u hu => hmax u (hperm.mem_iff.mpr hu)⟩

theorem claim_C4_witness :
    ∃ r path, validate_graph diamondG = .ok (r, path) ∧ path ≠ [] ∧
      (∃ r0, path.head? = some r0 ∧ predsOf diamondG r0 = []) ∧
      List.Chain' (fun a b => isEdge diamondG.edges a b = true) path ∧
      walkWeight diamondG path = r ∧
      (∃ e, path.getLast? = some e ∧
        ∀ u ∈ diamondG.nodes.map Prod.fst,
          lookupInt (efTable diamondG) u ≤ lookupInt (efTable diamondG) e) :=
  claim_C4 diamondG ⟨by decide, by decide, by decide⟩
    (not_hasCycle_of_complete diamondG ⟨by decide, by decide, by decide⟩ (by decide))
    (by decide)

/-- C10: the analyzer is only defined for nonempty graphs: on the
empty graph it raises the ValueError of max over the empty
earliest_finish dict at terminal selection instead of returning a
result such as (0, []), while on every nonempty acyclic graph the
terminal selection succeeds and a result is returned. -/
theorem claim_C10 :
    validate_graph ⟨[], []⟩ = .error .emptyMax ∧
      ∀ g : DiGraph, WF g → ¬ HasCycle g → g.nodes ≠ [] →
        ∃ r path, validate_graph g = .ok (r, path) := by
  refine ⟨rfl, ?_⟩
  intro g hwf hnc hne
  obtain ⟨e, -, -, hok⟩ :=
    validate_graph_ok g hwf (kahn_complete_of_acyclic g hwf hnc) hne
  exact ⟨_, _, hok⟩

theorem claim_C10_witness :
    validate_graph ⟨[], []⟩ = .error .emptyMax ∧
      ∃ r path, validate_graph chainG = .ok (r, path) :=
  ⟨claim_C10.1, claim_C10.2 chainG ⟨by decide, by decide, by decide⟩
    (not_hasCycle_of_complete chainG ⟨by decide, by decide, by decide⟩ (by decide))
    (by decide)⟩

/-!
Embedding of run_tasks as a small-step semantics.

run_tasks submits one unit of work per task to a ThreadPoolExecutor, in
the order nx.topological_sort yields (our kahn order).  The pool's work
queue is FIFO: with W worker threads the k-th submitted unit is the
k-th to start.  A started unit first blocks its worker on
futures[dep].result() for each registry dependency in order, then
sleeps for its duration and moves the task to done, freeing the
worker.  We model tasks by their submission index, a unit's blocking
phase by the list of dependency indices it still waits on, the finite
sleep as the single finishing step (sleep always terminates, so
collapsing it preserves liveness), and the scheduler's freedom by a
nondeterministic step relation.
-/

/-- tasks[name]: the registry entry of a task name.  The default is
the image of Python's KeyError and is unreachable in the proved runs:
build_graph only admits names whose lookup succeeds. -/
def taskAt (ts : Registry) (name : String) : TaskData :=
  match lookupTask ts name with
  | some td => td
  | none => ⟨0, []⟩

/-- The dependency indices the i-th submitted unit waits on: the
registry dependencies of the i-th task in submission (kahn) order,
each replaced by its own submission index. -/
def runDeps (ts : Registry) (g : DiGraph) (i : Nat) : List Nat :=
  ((taskAt ts ((kahn g).getD i "")).deps).map (fun d => (kahn g).indexOf d)

/-- A snapshot of the executor: units not yet picked by a worker (in
FIFO order), units occupying a worker together with the dependency
indices they still wait on, finished units, and free workers. -/
structure ExecState where
  queue : List Nat
  running : List (Nat × List Nat)
  done : List Nat
  idle : Nat
deriving DecidableEq

/-- The state right after the submission loop: every task queued in
submission order, no unit started, W workers free. -/
def initState (n W : Nat) : ExecState := ⟨List.range n, [], [], W⟩

/-- One scheduler step: a free worker picks the queue head; a blocked
unit observes that the dependency it waits on is done; a unit whose
waits are all discharged runs for its duration and finishes, freeing
its worker. -/
inductive EStep (deps : Nat → List Nat) : ExecState → ExecState → Prop
  | start (s : ExecState) (i : Nat) (q : List Nat) :
      s.queue = i :: q → 0 < s.idle →
      EStep deps s ⟨q, s.running ++ [(i, deps i)], s.done, s.idle - 1⟩
  | wait (s : ExecState) (pre post : List (Nat × List Nat)) (i d : Nat) (ds : List Nat) :
      s.running = pre ++ (i, d :: ds) :: post → d ∈ s.done →
      EStep deps s ⟨s.queue, pre ++ (i, ds) :: post, s.done, s.idle⟩
  | finish (s : ExecState) (pre post : List (Nat × List Nat)) (i : Nat) :
      s.running = pre ++ (i, []) :: post →
      EStep deps s ⟨s.queue, pre ++ post, s.done ++ [i], s.idle + 1⟩

/-- The executor invariant: the queue is the untouched tail of the
submission order; workers are conserved; a running unit's remaining
waits are a tail of its dependency list whose discharged head lies in
done; finished units have all dependencies finished; every task is
queued, running or done; started tasks are no longer queued. -/
def ExecInv (deps : Nat → List Nat) (n W : Nat) (s : ExecState) : Prop :=
  (∃ k, k ≤ n ∧ s.queue = List.range' k (n - k)) ∧
  s.idle + s.running.length = W ∧
  (∀ pr ∈ s.running, pr.1 < n ∧
    ∃ t, deps pr.1 = t ++ pr.2 ∧ ∀ d ∈ t, d ∈ s.done) ∧
  (∀ i ∈ s.done, i < n ∧ ∀ d ∈ deps i, d ∈ s.done) ∧
  (∀ j, j < n → j ∈ s.queue ∨ j ∈ s.running.map Prod.fst ∨ j ∈ s.done) ∧
  (∀ x, (x ∈ s.running.map Prod.fst ∨ x ∈ s.done) → x ∉ s.queue)

theorem exec_inv_init (deps : Nat → List Nat) (n W : Nat) :
    ExecInv deps n W (initState n W) := by
  refine ⟨⟨0, Nat.zero_le n, ?_⟩, by simp [initState], ?_, ?_, ?_, ?_⟩
  · show List.range n = List.range' 0 (n - 0)
    rw [Nat.sub_zero]
    exact List.range_eq_range' n
  · intro pr hpr
    simp [initState] at hpr
  · intro i hi
    simp [initState] at hi
  · intro j hj
    left
    exact List.mem_range.mpr hj
  · intro x hx
    rcases hx with h | h <;> simp [initState] at h

theorem exec_inv_step (deps : Nat → List Nat) (n W : Nat) (s s2 : ExecState)
    (hinv : ExecInv deps n W s) (h : EStep deps s s2) : ExecInv deps n W s2 := by
  obtain ⟨⟨k, hk, hq⟩, hidle, hrun, hdone, hpart, hnq⟩ := hinv
  cases h with
  | start i q hiq hid =>
    have hq2 := hq
    rw [hiq] at hq2
    cases hnk : n - k with
    | zero =>
      rw [hnk] at hq2
      simp at hq2
    | succ m =>
      rw [hnk, List.range'_succ] at hq2
      injection hq2 with hik hqeq
      have hkn : k < n := by omega
      refine ⟨⟨k + 1, by omega, ?_⟩, ?_, ?_, hdone, ?_, ?_⟩
      · show q = List.range' (k + 1) (n - (k + 1))
        rw [hqeq]
        congr 1
        omega
      · show (s.idle - 1) + (s.running ++ [(i, deps i)]).length = W
        simp only [List.length_append, List.length_cons, List.length_nil]
        omega
      · intro pr hpr
        rcases List.mem_append.mp hpr with hp | hp
        · exact hrun pr hp
        · simp only [List.mem_singleton] at hp
          rw [hp]
          exact ⟨by omega, [], by simp, by simp⟩
      · intro j hj
        rcases hpart j hj with hjq | hjr | hjd
        · rw [hiq] at hjq
          rcases List.mem_cons.mp hjq with hji | hjq2
          · right; left
            simp [hji]
          · left; exact hjq2
        · right; left
          simp only [List.map_append, List.mem_append]
          left; exact hjr
        · right; right; exact hjd
      · intro x hx
        show x ∉ q
        rcases hx with hxr | hxd
        · simp only [List.map_append, List.mem_append] at hxr
          rcases hxr with hxr | hxi
          · have h2 := hnq x (Or.inl hxr)
            rw [hiq] at h2
            simp only [List.mem_cons, not_or] at h2
            exact h2.2
          · simp only [List.map_cons, List.map_nil, List.mem_singleton] at hxi
            rw [hxi, hik, hqeq]
            intro hcon
            rw [List.mem_range'_1] at hcon
            omega
        · have h2 := hnq x (Or.inr hxd)
          rw [hiq] at h2
          simp only [List.mem_cons, not_or] at h2
          exact h2.2
  | wait pre post i d ds hrundec hd =>
    have hfst : (pre ++ (i, ds) :: post).map Prod.fst = s.running.map Prod.fst := by
      rw [hrundec]
      simp
    refine ⟨⟨k, hk, hq⟩, ?_, ?_, hdone, ?_, ?_⟩
    · show s.idle + (pre ++ (i, ds) :: post).length = W
      rw [hrundec] at hidle
      simp only [List.length_append, List.length_cons] at hidle ⊢
      omega
    · intro pr hpr
      rcases List.mem_append.mp hpr with hp | hp
      · exact hrun pr (by rw [hrundec]; exact List.mem_append_left _ hp)
      · rcases List.mem_cons.mp hp with hp2 | hp2
        · obtain ⟨hin, t, hteq, htd⟩ := hrun (i, d :: ds)
            (by rw [hrundec]; exact List.mem_append_right _ (List.mem_cons_self _ _))
          rw [hp2]
          have hteq2 : deps i = t ++ (d :: ds) := hteq
          refine ⟨hin, t ++ [d], ?_, ?_⟩
          · show deps i = (t ++ [d]) ++ ds
            rw [hteq2]
            simp
          · intro d2 hd2
            rcases List.mem_append.mp hd2 with h2 | h2
            · exact htd d2 h2
            · simp only [List.mem_singleton] at h2
              rw [h2]
              exact hd
        · exact hrun pr
            (by rw [hrundec]; exact List.mem_append_right _ (List.mem_cons_of_mem _ hp2))
    · intro j hj
      rcases hpart j hj with h1 | h1 | h1
      · left; exact h1
      · right; left
        rw [hfst]
        exact h1
      · right; right; exact h1
    · intro x hx
      apply hnq x
      rcases hx with h1 | h1
      · left
        rw [← hfst]
        exact h1
      · right; exact h1
  | finish pre post i hrundec =>
    have himem : (i, ([] : List Nat)) ∈ s.running := by
      rw [hrundec]
      exact List.mem_append_right _ (List.mem_cons_self _ _)
    obtain ⟨hin, t, hteq, htd⟩ := hrun (i, []) himem
    have htdeps : deps i = t := by
      have h2 : deps i = t ++ [] := hteq
      simpa using h2
    refine ⟨⟨k, hk, hq⟩, ?_, ?_, ?_, ?_, ?_⟩
    · show (s.idle + 1) + (pre ++ post).length = W
      rw [hrundec] at hidle
      simp only [List.length_append, List.length_cons] at hidle ⊢
      omega
    · intro pr hpr
      have hprold : pr ∈ s.running := by
        rw [hrundec]
        rcases List.mem_append.mp hpr with h1 | h1
        · exact List.mem_append_left _ h1
        · exact List.mem_append_right _ (List.mem_cons_of_mem _ h1)
      obtain ⟨h1, t2, h2, h3⟩ := hrun pr hprold
      exact ⟨h1, t2, h2, fun d2 hd2 => List.mem_append_left _ (h3 d2 hd2)⟩
    · intro x hx
      rcases List.mem_append.mp hx with h1 | h1
      · obtain ⟨h2, h3⟩ := hdone x h1
        exact ⟨h2, fun d2 hd2 => List.mem_append_left _ (h3 d2 hd2)⟩
      · simp only [List.mem_singleton] at h1
        rw [h1]
        refine ⟨hin, ?_⟩
        intro d2 hd2
        rw [htdeps] at hd2
        exact List.mem_append_left _ (htd d2 hd2)
    · intro j hj
      rcases hpart j hj with h1 | h1 | h1
      · left; exact h1
      · rw [hrundec] at h1
        simp only [List.map_append, List.map_cons, List.mem_append, List.mem_cons] at h1
        rcases h1 with h2 | h2 | h2
        · right; left
          simp only [List.map_append, List.mem_append]
          left; exact h2
        · right; right
          rw [h2]
          exact List.mem_append_right _ (List.mem_singleton.mpr rfl)
        · right; left
          simp only [List.map_append, List.mem_append]
          right; exact h2
      · right; right
        exact List.mem_append_left _ h1
    · intro x hx
      apply hnq x
      rcases hx with h1 | h1
      · left
        rw [hrundec]
        simp only [List.map_append, List.mem_append] at h1 ⊢
        rcases h1 with h2 | h2
        · left; exact h2
        · right
          simp only [List.map_cons, List.mem_cons]
          right; exact h2
      · rcases List.mem_append.mp h1 with h2 | h2
        · right; exact h2
        · left
          simp only [List.mem_singleton] at h2
          rw [hrundec, h2]
          simp

theorem exists_min_fst (l : List (Nat × List Nat)) (hne : l ≠ []) :
    ∃ pr ∈ l, ∀ pr2 ∈ l, pr.1 ≤ pr2.1 := by
  induction l with
  | nil => exact absurd rfl hne
  | cons a t ih =>
    cases t with
    | nil =>
      refine ⟨a, List.mem_cons_self a [], ?_⟩
      intro pr2 h2
      simp only [List.mem_singleton] at h2
      rw [h2]
    | cons b t2 =>
      obtain ⟨pr, hpr, hmin⟩ := ih (by simp)
      by_cases hle : a.1 ≤ pr.1
      · refine ⟨a, List.mem_cons_self a (b :: t2), ?_⟩
        intro pr2 h2
        rcases List.mem_cons.mp h2 with h3 | h3
        · rw [h3]
        · exact le_trans hle (hmin pr2 h3)
      · refine ⟨pr, List.mem_cons_of_mem a hpr, ?_⟩
        intro pr2 h2
        rcases List.mem_cons.mp h2 with h3 | h3
        · rw [h3]
          omega
        · exact hmin pr2 h3

theorem exec_progress (deps : Nat → List Nat) (n W : Nat) (hW : 0 < W)
    (hdeps : ∀ i, i < n → ∀ d ∈ deps i, d < i)
    (s : ExecState) (hinv : ExecInv deps n W s)
    (hnf : ¬ (s.queue = [] ∧ s.running = [])) :
    ∃ s2, EStep deps s s2 := by
  obtain ⟨⟨k, hk, hq⟩, hidle, hrun, hdone, hpart, hnq⟩ := hinv
  by_cases hrne : s.running = []
  · have hqne : s.queue ≠ [] := fun h => hnf ⟨h, hrne⟩
    obtain ⟨i, q, hiq⟩ : ∃ i q, s.queue = i :: q := by
      cases hqq : s.queue with
      | nil => exact absurd hqq hqne
      | cons a t => exact ⟨a, t, rfl⟩
    have hid : 0 < s.idle := by
      rw [hrne] at hidle
      simp only [List.length_nil, Nat.add_zero] at hidle
      omega
    exact ⟨_, EStep.start s i q hiq hid⟩
  · obtain ⟨pr, hpr, hmin⟩ := exists_min_fst s.running hrne
    obtain ⟨i, ds⟩ := pr
    obtain ⟨pre, post, hdec⟩ := List.append_of_mem hpr
    cases hds : ds with
    | nil =>
      rw [hds] at hdec
      exact ⟨_, EStep.finish s pre post i hdec⟩
    | cons d ds2 =>
      obtain ⟨hin, t, hteq, htd⟩ := hrun (i, ds) hpr
      have hteq2 : deps i = t ++ ds := hteq
      have hdmem : d ∈ deps i := by
        rw [hteq2, hds]
        exact List.mem_append_right _ (List.mem_cons_self _ _)
      have hdi : d < i := hdeps i hin d hdmem
      have hdn : d < n := lt_trans hdi hin
      have hiq : i ∈ s.running.map Prod.fst := List.mem_map.mpr ⟨(i, ds), hpr, rfl⟩
      have hinotq : i ∉ s.queue := hnq i (Or.inl hiq)
      rcases hpart d hdn with hdq | hdr | hdd
      · exfalso
        rw [hq] at hdq hinotq
        rw [List.mem_range'_1] at hdq
        have hik : i < k := by
          by_contra hik2
          push_neg at hik2
          exact hinotq (List.mem_range'_1.mpr ⟨hik2, by omega⟩)
        omega
      · exfalso
        obtain ⟨pr2, hpr2, hpr2d⟩ := List.mem_map.mp hdr
        have hmin2 : i ≤ pr2.1 := hmin pr2 hpr2
        omega
      · rw [hds] at hdec
        exact ⟨_, EStep.wait s pre post i d ds2 hdec hdd⟩

/-- The termination measure: a queued unit will cost one start step,
one finish step and one wait step per dependency; a running unit one
finish step and one wait step per remaining dependency.  Every
scheduler step strictly decreases it. -/
def execMeasure (deps : Nat → List Nat) (s : ExecState) : Nat :=
  (s.queue.map (fun i => 2 + (deps i).length)).sum +
    (s.running.map (fun pr => 1 + pr.2.length)).sum

theorem exec_measure_lt (deps : Nat → List Nat) (s s2 : ExecState)
    (h : EStep deps s s2) : execMeasure deps s2 < execMeasure deps s := by
  cases h with
  | start i q hiq hid =>
    simp only [execMeasure, hiq, List.map_cons, List.sum_cons, List.map_append,
      List.sum_append, List.map_nil, List.sum_nil]
    omega
  | wait pre post i d ds hrundec hd =>
    simp only [execMeasure, hrundec, List.map_append, List.sum_append, List.map_cons,
      List.sum_cons, List.length_cons]
    omega
  | finish pre post i hrundec =>
    simp only [execMeasure, hrundec, List.map_append, List.sum_append, List.map_cons,
      List.sum_cons, List.length_nil]
    omega

theorem exec_inv_reachable (deps : Nat → List Nat) (n W : Nat) (s : ExecState)
    (h : Relation.ReflTransGen (EStep deps) (initState n W) s) :
    ExecInv deps n W s := by
  induction h with
  | refl => exact exec_inv_init deps n W
  | tail _ hstep ih => exact exec_inv_step deps n W _ _ ih hstep

theorem buildDeps_edge_mono (ts : Registry) (task : String) :
    ∀ (ds : List String) (g g2 : DiGraph), buildDeps ts task ds g = .ok g2 →
      g.edges ⊆ g2.edges ∧ ∀ d ∈ ds, (d, task) ∈ g2.edges := by
  intro ds
  induction ds with
  | nil =>
    intro g g2 h
    simp only [buildDeps] at h
    injection h with h2
    rw [← h2]
    exact ⟨fun x hx => hx, by simp⟩
  | cons d rest ih =>
    intro g g2 h
    simp only [buildDeps] at h
    by_cases hl : (lookupTask ts d).isSome
    · rw [if_pos hl] at h
      obtain ⟨hsub, hall⟩ := ih _ g2 h
      have hgrow : g.edges ⊆ addEdge g.edges (d, task) := by
        intro e he
        rw [addEdge]
        by_cases hmem : (d, task) ∈ g.edges
        · rw [if_pos hmem]; exact he
        · rw [if_neg hmem]; exact List.mem_append_left _ he
      have hde : (d, task) ∈ addEdge g.edges (d, task) := by
        rw [addEdge]
        by_cases hmem : (d, task) ∈ g.edges
        · rw [if_pos hmem]; exact hmem
        · rw [if_neg hmem]; exact List.mem_append_right _ (by simp)
      refine ⟨fun e he => hsub (hgrow he), ?_⟩
      intro d2 hd2
      rcases List.mem_cons.mp hd2 with h2 | h2
      · rw [h2]
        exact hsub hde
      · exact hall d2 h2
    · rw [if_neg hl] at h
      exact absurd h (by simp)

theorem buildAll_edge (ts : Registry) :
    ∀ (rest : List (String × TaskData)) (g g2 : DiGraph), buildAll ts rest g = .ok g2 →
      g.edges ⊆ g2.edges ∧
      ∀ pr ∈ rest, ∀ d ∈ pr.2.deps, (d, pr.1) ∈ g2.edges := by
  intro rest
  induction rest with
  | nil =>
    intro g g2 h
    simp only [buildAll] at h
    injection h with h2
    rw [← h2]
    exact ⟨fun x hx => hx, by simp⟩
  | cons hd tl ih =>
    intro g g2 h
    obtain ⟨task, td⟩ := hd
    simp only [buildAll] at h
    cases hbd : buildDeps ts task td.deps ⟨addNode g.nodes task td.duration, g.edges⟩ with
    | error e =>
      rw [hbd] at h
      exact absurd h (by simp)
    | ok gm =>
      rw [hbd] at h
      obtain ⟨hsub2, hrest⟩ := ih gm g2 h
      obtain ⟨hsub1, hdeps1⟩ := buildDeps_edge_mono ts task td.deps _ gm hbd
      refine ⟨fun e he => hsub2 (hsub1 he), ?_⟩
      intro pr hpr
      rcases List.mem_cons.mp hpr with h2 | h2
      · rw [h2]
        intro d hd
        exact hsub2 (hdeps1 d hd)
      · exact hrest pr h2

theorem lookupTask_mem (ts : Registry) (name : String) (td : TaskData)
    (h : lookupTask ts name = some td) : (name, td) ∈ ts := by
  rw [lookupTask] at h
  cases hf : ts.find? (fun p => p.1 = name) with
  | none =>
    rw [hf] at h
    simp at h
  | some q =>
    rw [hf] at h
    simp only [Option.map_some'] at h
    have hq := List.mem_of_find?_eq_some hf
    have hq1 : q.1 = name := by simpa using List.find?_some hf
    have hq2 : q = (name, td) := Prod.ext hq1 (Option.some.inj h)
    rw [← hq2]
    exact hq

theorem nodup_indexOf_get {α : Type} [DecidableEq α] :
    ∀ (l : List α), l.Nodup → ∀ (i : Nat) (h : i < l.length),
      l.indexOf (l.get ⟨i, h⟩) = i := by
  intro l
  induction l with
  | nil =>
    intro _ i h
    simp at h
  | cons a t ih =>
    intro hnd i h
    cases i with
    | zero => simp
    | succ i =>
      have hti : i < t.length := by simpa using h
      have hget : (a :: t).get ⟨i + 1, h⟩ = t.get ⟨i, hti⟩ := rfl
      rw [hget]
      have hmem : t.get ⟨i, hti⟩ ∈ t := t.get_mem i hti
      have hane : a ≠ t.get ⟨i, hti⟩ := by
        intro hne
        exact (List.nodup_cons.mp hnd).1 (hne ▸ hmem)
      rw [List.indexOf_cons_ne t hane, ih (List.nodup_cons.mp hnd).2 i hti]

theorem runDeps_lt (ts : Registry) (g : DiGraph) (hwf : WF g)
    (hbuild : build_graph ts = .ok g)
    (hcomp : (kahn g).length = (g.nodes.map Prod.fst).length) :
    ∀ i, i < (kahn g).length → ∀ x ∈ runDeps ts g i, x < i := by
  intro i hi x hx
  rw [runDeps] at hx
  obtain ⟨d0, hd0, hd0x⟩ := List.mem_map.mp hx
  cases hlt : lookupTask ts ((kahn g).getD i "") with
  | none =>
    rw [taskAt, hlt] at hd0
    simp at hd0
  | some td =>
    rw [taskAt, hlt] at hd0
    have hmem := lookupTask_mem ts ((kahn g).getD i "") td hlt
    have hedge : (d0, (kahn g).getD i "") ∈ g.edges :=
      (buildAll_edge ts ts ⟨[], []⟩ g hbuild).2 ((kahn g).getD i "", td) hmem d0 hd0
    have hidx := kahn_edge_idx_lt g hwf hcomp d0 ((kahn g).getD i "")
      ((isEdge_iff g.edges d0 ((kahn g).getD i "")).mpr hedge)
    have hgetd : (kahn g).getD i "" = (kahn g).get ⟨i, hi⟩ := List.getD_eq_get _ _ hi
    have hTnd : (kahn g).Nodup := kahnAux_nodup g.edges _ _ hwf.1
    have hidxi : (kahn g).indexOf ((kahn g).getD i "") = i := by
      rw [hgetd]
      exact nodup_indexOf_get (kahn g) hTnd i hi
    rw [← hd0x]
    rw [hidxi] at hidx
    exact hidx

/-- C9: run_tasks never deadlocks and always terminates with every
task Done, each task having started its work only after all its
dependencies finished.  Because the units are submitted in topological
order to a FIFO work queue, every dependency a blocked worker waits on
has itself already been dequeued, so the worker-pool starvation hazard
cannot arise for any graph shape or pool size: on every valid acyclic
built graph and any pool of W >= 1 workers, every dependency index
waited on precedes its unit in submission order; every reachable
executor state either is final with all tasks done or can step; every
step strictly decreases a finite measure (so runs cannot go on
forever); and a unit finishes, or reaches its running phase, only when
all of its dependencies are done. -/
theorem claim_C9 (ts : Registry) (g : DiGraph) (W : Nat) (hW : 0 < W)
    (hbuild : build_graph ts = .ok g) (hwf : WF g)
    (hcomp : (kahn g).length = (g.nodes.map Prod.fst).length) :
    (∀ i, i < (kahn g).length → ∀ d ∈ runDeps ts g i, d < i) ∧
    (∀ s, Relation.ReflTransGen (EStep (runDeps ts g))
        (initState (kahn g).length W) s →
      ((s.queue = [] ∧ s.running = []) →
        ∀ j, j < (kahn g).length → j ∈ s.done) ∧
      (¬ (s.queue = [] ∧ s.running = []) → ∃ s2, EStep (runDeps ts g) s s2) ∧
      (∀ i ∈ s.done, ∀ d ∈ runDeps ts g i, d ∈ s.done) ∧
      (∀ pr ∈ s.running, pr.2 = [] → ∀ d ∈ runDeps ts g pr.1, d ∈ s.done)) ∧
    (∀ s s2, EStep (runDeps ts g) s s2 →
      execMeasure (runDeps ts g) s2 < execMeasure (runDeps ts g) s) := by
  have hdeps := runDeps_lt ts g hwf hbuild hcomp
  refine ⟨hdeps, ?_, fun s s2 h => exec_measure_lt (runDeps ts g) s s2 h⟩
  intro s hreach
  have hinv := exec_inv_reachable (runDeps ts g) (kahn g).length W s hreach
  obtain ⟨hqsuf, hidle, hrun, hdone, hpart, hnq⟩ := hinv
  refine ⟨?_, ?_, ?_, ?_⟩
  · rintro ⟨hqe, hre⟩ j hj
    rcases hpart j hj with h1 | h1 | h1
    · rw [hqe] at h1
      simp at h1
    · rw [hre] at h1
      simp at h1
    · exact h1
  · intro hnf
    exact exec_progress (runDeps ts g) (kahn g).length W hW hdeps s
      ⟨hqsuf, hidle, hrun, hdone, hpart, hnq⟩ hnf
  · intro i hi d hd
    exact (hdone i hi).2 d hd
  · intro pr hpr hpr2 d hd
    obtain ⟨-, t, hteq, htd⟩ := hrun pr hpr
    rw [hpr2] at hteq
    apply htd
    rw [← List.append_nil t, ← hteq]
    exact hd

theorem claim_C9_witness :
    (∀ i, i < (kahn diamondG).length → ∀ d ∈ runDeps diamondReg diamondG i, d < i) ∧
    (∀ s, Relation.ReflTransGen (EStep (runDeps diamondReg diamondG))
        (initState (kahn diamondG).length 1) s →
      ((s.queue = [] ∧ s.running = []) →
        ∀ j, j < (kahn diamondG).length → j ∈ s.done) ∧
      (¬ (s.queue = [] ∧ s.running = []) →
        ∃ s2, EStep (runDeps diamondReg diamondG) s s2) ∧
      (∀ i ∈ s.done, ∀ d ∈ runDeps diamondReg diamondG i, d ∈ s.done) ∧
      (∀ pr ∈ s.running, pr.2 = [] →
        ∀ d ∈ runDeps diamondReg diamondG pr.1, d ∈ s.done)) ∧
    (∀ s s2, EStep (runDeps diamondReg diamondG) s s2 →
      execMeasure (runDeps diamondReg diamondG) s2 <
        execMeasure (runDeps diamondReg diamondG) s) :=
  claim_C9 diamondReg diamondG 1 (by decide) rfl ⟨by decide, by decide, by decide⟩
    (by decide)
